import Mathlib

set_option maxHeartbeats 1000000

/-!  Verification development for the elastic-vandelay import/export tool.

The Go source (main.go) is modelled shallowly:

* Go strings and byte slices are modelled as `List Char`.
* The JSON (de)serialization performed by `encoding/json` and `gjson`, and the
  gzip codec from `compress/gzip`, are external collaborators; operations that
  use them are parameterized over the corresponding pure functions.  Concrete
  small codecs are provided so that the statements can be exercised on
  concrete inputs.
* The two concurrent goroutines of a transfer (source reader and sink writer),
  the unbuffered channel between them, and the `errgroup`/context cancellation
  discipline are modelled by an explicit small-step transition system.
-/

/-- The newline byte used as the record separator of the file format. -/
def nl : Char := Char.ofNat 10

/-- `leadsWith pat s` is true when `pat` occurs at the start of `s`
(Go `strings.HasPrefix`, specialised to char lists). -/
def leadsWith : List Char → List Char → Bool
  | [], _ => true
  | _ :: _, [] => false
  | p :: ps, c :: cs => decide (p = c) && leadsWith ps cs

/-- `containsSub s pat` is true when `pat` occurs anywhere inside `s`
(Go `strings.Contains`). -/
def containsSub : List Char → List Char → Bool
  | [], pat => leadsWith pat []
  | c :: cs, pat => leadsWith pat (c :: cs) || containsSub cs pat

/-- `trailsWith s pat` is true when `s` ends with `pat` (Go `strings.HasSuffix`). -/
def trailsWith (s pat : List Char) : Bool :=
  decide (pat.length ≤ s.length) && decide (s.drop (s.length - pat.length) = pat)

/-- Go `strings.TrimSuffix s pat`: remove one trailing `pat` when present. -/
def trimSuffix (s pat : List Char) : List Char :=
  if trailsWith s pat then s.take (s.length - pat.length) else s

/-- Go `strings.Replace s pat "" 1` for nonempty `pat`: delete the first
occurrence of `pat` anywhere in `s`. -/
def replaceFirst : List Char → List Char → List Char
  | [], _ => []
  | c :: cs, pat =>
    if leadsWith pat (c :: cs) then (c :: cs).drop pat.length
    else c :: replaceFirst cs pat

/-- `pat` does not overlap itself: no splitting of `pat` makes its tail
also a front part of `pat`.  Rules out occurrences straddling a boundary. -/
def noOverlapB (pat : List Char) : Bool :=
  (List.range pat.length).all fun j =>
    decide (j = 0) || decide (pat.drop j ≠ pat.take (pat.length - j))

def gzExt : List Char := ".gz".toList

def jsonExt : List Char := ".json".toList

def mappingSuffix : List Char := "-mapping.json".toList

/-- The companion schema-file path derived by `writeMappingsToFile`
(main.go lines 479-481): `strings.TrimSuffix ".gz"`, then
`strings.TrimSuffix ".json"`, then append `"-mapping.json"`. -/
def writeMappingsToFileTarget (file : List Char) : List Char :=
  trimSuffix (trimSuffix file gzExt) jsonExt ++ mappingSuffix

/-- The companion schema-file path derived by `readMappingsFromFile`
(main.go lines 414-415): `strings.Replace file ".gz" "" 1`, then
`strings.Replace _ ".json" "" 1`, then append `"-mapping.json"`. -/
def readMappingsFromFileTarget (file : List Char) : List Char :=
  replaceFirst (replaceFirst file gzExt) jsonExt ++ mappingSuffix

theorem leadsWith_self (l : List Char) : leadsWith l l = true := by
  induction l with
  | nil => rfl
  | cons c cs ih => simp [leadsWith, ih]

theorem leadsWith_iff_append (p s : List Char) :
    leadsWith p s = true ↔ ∃ t, s = p ++ t := by
  induction p generalizing s with
  | nil =>
    simp [leadsWith]
  | cons c cs ih =>
    cases s with
    | nil =>
      simp only [leadsWith]
      constructor
      · intro h
        exact Bool.noConfusion h
      · rintro ⟨t, h⟩
        exact List.noConfusion h
    | cons d ds =>
      simp only [leadsWith, Bool.and_eq_true, decide_eq_true_eq, ih]
      constructor
      · rintro ⟨rfl, t, rfl⟩
        exact ⟨t, rfl⟩
      · rintro ⟨t, h⟩
        injection h with h1 h2
        exact ⟨h1.symm, t, h2⟩

theorem replaceFirst_no_occurrence (s pat : List Char)
    (h : containsSub s pat = false) : replaceFirst s pat = s := by
  induction s with
  | nil => rfl
  | cons c cs ih =>
    simp only [containsSub, Bool.or_eq_false_iff] at h
    simp [replaceFirst, h.1, ih h.2]

theorem replaceFirst_trailing (pat : List Char) (hno : noOverlapB pat = true)
    (hne : pat ≠ []) :
    ∀ a : List Char, containsSub a pat = false →
      replaceFirst (a ++ pat) pat = a := by
  intro a
  induction a with
  | nil =>
    intro _
    cases pat with
    | nil => exact absurd rfl hne
    | cons p ps =>
      simp [replaceFirst, leadsWith_self, List.drop_length]
  | cons c a ih =>
    intro h
    simp only [containsSub, Bool.or_eq_false_iff] at h
    obtain ⟨hna, hca⟩ := h
    rw [List.cons_append]
    by_cases hl : leadsWith pat (c :: (a ++ pat)) = true
    · exfalso
      have hsp : c :: (a ++ pat) = (c :: a) ++ pat := by simp
      obtain ⟨t, ht⟩ := (leadsWith_iff_append pat _).1 hl
      rw [hsp] at ht
      rcases le_or_lt pat.length (c :: a).length with hle | hlt
      · -- then pat would be a front part of `c :: a`, against `hna`
        have h2 : ((c :: a) ++ pat).take pat.length = pat := by
          rw [ht, List.take_left]
        rw [List.take_append_eq_append_take, Nat.sub_eq_zero_of_le hle,
          List.take_zero, List.append_nil] at h2
        have hpre : leadsWith pat (c :: a) = true := by
          rw [leadsWith_iff_append]
          refine ⟨(c :: a).drop pat.length, ?_⟩
          conv_lhs => rw [← List.take_append_drop pat.length (c :: a)]
          rw [h2]
        rw [hpre] at hna
        exact Bool.noConfusion hna
      · -- then pat would overlap itself, against `hno`
        have hm : (c :: a).length ≤ pat.length := Nat.le_of_lt hlt
        have h2 : ((c :: a) ++ pat).take pat.length = pat := by
          rw [ht, List.take_left]
        rw [List.take_append_eq_append_take,
          List.take_of_length_le hm] at h2
        have h4 : pat.drop (c :: a).length = pat.take (pat.length - (c :: a).length) := by
          conv_lhs => rw [← h2]
          rw [List.drop_left]
        have hj : (c :: a).length ∈ List.range pat.length := List.mem_range.2 hlt
        have hall := List.all_eq_true.1 hno _ hj
        simp only [Bool.or_eq_true, decide_eq_true_eq] at hall
        rcases hall with h0 | hne2
        · simp at h0
        · exact hne2 h4
    · simp only [Bool.not_eq_true] at hl
      simp [replaceFirst, hl, ih hca]

theorem trailsWith_split (s pat : List Char) (h : trailsWith s pat = true) :
    s = s.take (s.length - pat.length) ++ pat := by
  simp only [trailsWith, Bool.and_eq_true, decide_eq_true_eq] at h
  conv_lhs => rw [← List.take_append_drop (s.length - pat.length) s]
  rw [h.2]

/-- When the pattern occurs only as a trailing suffix (if at all), removing
its first occurrence agrees with trimming the suffix. -/
theorem replaceFirst_eq_trimSuffix (pat s : List Char)
    (hno : noOverlapB pat = true) (hne : pat ≠ [])
    (h : containsSub (trimSuffix s pat) pat = false) :
    replaceFirst s pat = trimSuffix s pat := by
  by_cases hs : trailsWith s pat = true
  · have hts : trimSuffix s pat = s.take (s.length - pat.length) := by
      simp [trimSuffix, hs]
    rw [hts] at h ⊢
    conv_lhs => rw [trailsWith_split s pat hs]
    exact replaceFirst_trailing pat hno hne _ h
  · have hts : trimSuffix s pat = s := by
      simp [trimSuffix, hs]
    rw [hts] at h ⊢
    exact replaceFirst_no_occurrence s pat h

/-- C6 (counterexample): for the data-file path "a.gz.b" the schema path
written by `writeMappingsToFile` and the one looked up by
`readMappingsFromFile` differ: the writer only trims a trailing ".gz",
while the reader deletes the first ".gz" found anywhere in the path. -/
theorem mappingTargetDisagree :
    writeMappingsToFileTarget ("a.gz.b".toList) ≠
      readMappingsFromFileTarget ("a.gz.b".toList) := by decide

/-- C6 (amended): the writer's and the reader's companion schema-file paths
agree for every data-file path in which ".gz" and ".json" occur only as the
trailing suffixes that get stripped (if at all).  In general they differ,
because the writer strips trailing suffixes while the reader removes the
first occurrence anywhere in the path. -/
theorem mappingTargetAgree (file : List Char)
    (h1 : containsSub (trimSuffix file gzExt) gzExt = false)
    (h2 : containsSub (trimSuffix (trimSuffix file gzExt) jsonExt) jsonExt = false) :
    writeMappingsToFileTarget file = readMappingsFromFileTarget file := by
  unfold writeMappingsToFileTarget readMappingsFromFileTarget
  rw [replaceFirst_eq_trimSuffix gzExt file (by decide) (by decide) h1,
    replaceFirst_eq_trimSuffix jsonExt _ (by decide) (by decide) h2]

theorem mappingTargetAgreeWitness :
    containsSub (trimSuffix ("data.json.gz".toList) gzExt) gzExt = false ∧
      containsSub (trimSuffix (trimSuffix ("data.json.gz".toList) gzExt) jsonExt) jsonExt
        = false ∧
      writeMappingsToFileTarget ("data.json.gz".toList) =
        readMappingsFromFileTarget ("data.json.gz".toList) :=
  ⟨by decide, by decide, mappingTargetAgree _ (by decide) (by decide)⟩

/-- One record moved by the pipeline: an `elastic.SearchHit`, restricted to
the fields the transfer preserves (`_index`, `_id`, `_source`). -/
structure Document where
  collection : List Char
  id : List Char
  payload : List Char
deriving DecidableEq

/-- What the file-sink goroutine does to its output stream, in order. -/
inductive WEvent where
  | write (bs : List Char)
  | flush
  | closeGzip
  | closeFile
deriving DecidableEq

/-- Result of the file-sink goroutine.  `ioError` is listed because the spec
names it; the modelled code can never produce it (write errors are ignored). -/
inductive WErr where
  | ioError
  | cancelled
deriving DecidableEq

/-- The context becomes done (the other task failed) once `i` records have
been handed to the sink, for `cancelAt = some i`. -/
def ctxDone (cancelAt : Option Nat) (i : Nat) : Bool :=
  match cancelAt with
  | none => false
  | some k => decide (k ≤ i)

structure LoopOut where
  events : List WEvent
  logs : Nat
  failedWrites : Nat
  res : Option WErr
deriving DecidableEq

/-- The marshalled bytes of one record as the sink writes them: the
`json.Marshal` output (or nothing when marshalling fails) plus `"\n"`. -/
def marshalLine (enc : Document → Option (List Char)) (d : Document) : List Char :=
  (match enc d with | some b => b | none => []) ++ [nl]

/-- The body of the loop of `writeDataToFile` (main.go 355-372): for each
record received from the channel, marshal it (on failure log and fall through
with nil bytes), write the bytes and a newline ignoring the write errors, and
after each record poll the shared context, returning `ctx.Err()` when it is
done.  `enc` stands for `json.Marshal`, `wfail i` tells whether the i-th
`Write` call fails in the underlying stream, `i` counts processed records and
`w` counts issued writes. -/
def writeLoop (enc : Document → Option (List Char)) (wfail : Nat → Bool)
    (cancelAt : Option Nat) : List Document → Nat → Nat → LoopOut
  | [], _, _ => ⟨[WEvent.flush], 0, 0, none⟩
  | d :: rest, i, w =>
    let b := match enc d with | some b => b | none => []
    let lg : Nat := match enc d with | some _ => 0 | none => 1
    let fw : Nat := (if wfail w then 1 else 0) + (if wfail (w + 1) then 1 else 0)
    if ctxDone cancelAt (i + 1) then
      ⟨[WEvent.write b, WEvent.write [nl]], lg, fw, some WErr.cancelled⟩
    else
      let r := writeLoop enc wfail cancelAt rest (i + 1) (w + 2)
      ⟨WEvent.write b :: WEvent.write [nl] :: r.events, lg + r.logs,
        fw + r.failedWrites, r.res⟩

/-- The bytes that reach the stream below the buffered writer, in model terms:
the payloads of the `write` events, in order. -/
def writtenOf : List WEvent → List Char
  | [] => []
  | WEvent.write bs :: es => bs ++ writtenOf es
  | _ :: es => writtenOf es

structure WOut where
  out : List Char
  events : List WEvent
  logs : Nat
  failedWrites : Nat
  res : Option WErr

/-- `writeDataToFile` (main.go 332-381): buffer all record writes; when the
channel is drained flush the buffer, close the gzip writer when the path ends
in ".gz", and close the file.  When the context fires mid-stream return
`ctx.Err()` immediately (no flush, no closes).  The buffered writer is
modelled as holding everything until the final flush, so a cancelled run
delivers no bytes; `comp` stands for the gzip compressor applied to the byte
stream that was flushed through it. -/
def writeDataToFile (comp : List Char → List Char) (filePath : List Char)
    (enc : Document → Option (List Char)) (wfail : Nat → Bool)
    (cancelAt : Option Nat) (docs : List Document) : WOut :=
  let r := writeLoop enc wfail cancelAt docs 0 0
  let gz := trailsWith filePath gzExt
  let out := if r.res = none then
      (if gz then comp (writtenOf r.events) else writtenOf r.events)
    else []
  let closes := if r.res = none then
      (if gz then [WEvent.closeGzip, WEvent.closeFile] else [WEvent.closeFile])
    else []
  ⟨out, r.events ++ closes, r.logs, r.failedWrites, r.res⟩

/-- One `bufio.Reader.ReadBytes('\n')` call: the shortest front part of the
input ending in a newline (inclusive), or `none` at end of input. -/
def takeLine : List Char → Option (List Char × List Char)
  | [] => none
  | c :: cs =>
    if c = nl then some ([c], cs)
    else
      match takeLine cs with
      | none => none
      | some (l, r) => some (c :: l, r)

theorem takeLine_rest_length (bs l r : List Char)
    (h : takeLine bs = some (l, r)) : r.length < bs.length := by
  induction bs generalizing l r with
  | nil => exact Option.noConfusion h
  | cons c cs ih =>
    simp only [takeLine] at h
    by_cases hc : c = nl
    · rw [if_pos hc] at h
      injection h with h
      injection h with h1 h2
      subst h2
      simp
    · rw [if_neg hc] at h
      cases hcs : takeLine cs with
      | none => rw [hcs] at h; exact Option.noConfusion h
      | some p =>
        obtain ⟨l0, r0⟩ := p
        rw [hcs] at h
        injection h with h
        injection h with h1 h2
        subst h2
        exact Nat.lt_trans (ih l0 r0 hcs) (by simp)

/-- The loop of `readDataFromFile` (main.go 269-286): read newline-terminated
lines, sending each one (newline included) onward; a trailing fragment
without a final newline is dropped at `io.EOF`. -/
def splitLines (bs : List Char) : List (List Char) :=
  match h : takeLine bs with
  | none => []
  | some (l, r) => l :: splitLines r
termination_by bs.length
decreasing_by exact takeLine_rest_length bs l r h

/-- `readDataFromFile` (main.go 243-288): when the path ends in ".gz" pass
the bytes through the gzip reader (`decomp`) first, then split into
newline-terminated lines. -/
def readDataFromFile (decomp : List Char → List Char) (filePath : List Char)
    (content : List Char) : List (List Char) :=
  splitLines (if trailsWith filePath gzExt then decomp content else content)

theorem takeLine_newline (l rest : List Char) (hl : nl ∉ l) :
    takeLine (l ++ nl :: rest) = some (l ++ [nl], rest) := by
  induction l with
  | nil => simp [takeLine]
  | cons c l ih =>
    have hc : c ≠ nl := fun h => hl (h ▸ List.mem_cons_self c l)
    have hl2 : nl ∉ l := fun h => hl (List.mem_cons_of_mem c h)
    simp [takeLine, hc, ih hl2]

theorem splitLines_nil : splitLines [] = [] := by
  rw [splitLines]
  rfl

theorem splitLines_newline (l rest : List Char) (hl : nl ∉ l) :
    splitLines (l ++ nl :: rest) = (l ++ [nl]) :: splitLines rest := by
  rw [splitLines]
  split
  · rename_i heq
    rw [takeLine_newline l rest hl] at heq
    exact Option.noConfusion heq
  · rename_i l0 r0 heq
    rw [takeLine_newline l rest hl] at heq
    injection heq with heq
    injection heq with h1 h2
    rw [h1, h2]

theorem splitLines_flat (ls : List (List Char)) (h : ∀ l ∈ ls, nl ∉ l) :
    splitLines ((ls.map (· ++ [nl])).flatten) = ls.map (· ++ [nl]) := by
  induction ls with
  | nil => simpa using splitLines_nil
  | cons l ls ih =>
    have h1 : nl ∉ l := h l (List.mem_cons_self l ls)
    have h2 : ∀ x ∈ ls, nl ∉ x := fun x hx => h x (List.mem_cons_of_mem l hx)
    have : (l ++ [nl]) ++ (ls.map (· ++ [nl])).flatten
        = l ++ nl :: (ls.map (· ++ [nl])).flatten := by simp
    simp only [List.map_cons, List.flatten_cons, this,
      splitLines_newline l _ h1, ih h2]

theorem writeLoop_res_none (enc : Document → Option (List Char))
    (wfail : Nat → Bool) :
    ∀ (docs : List Document) (i w : Nat),
      (writeLoop enc wfail none docs i w).res = none := by
  intro docs
  induction docs with
  | nil => intro i w; rfl
  | cons d rest ih => intro i w; simp [writeLoop, ctxDone, ih]

theorem writeLoop_written (enc : Document → Option (List Char))
    (wfail : Nat → Bool) :
    ∀ (docs : List Document) (i w : Nat),
      writtenOf (writeLoop enc wfail none docs i w).events
        = (docs.map (marshalLine enc)).flatten := by
  intro docs
  induction docs with
  | nil => intro i w; rfl
  | cons d rest ih =>
    intro i w
    simp [writeLoop, ctxDone, writtenOf, marshalLine, ih]

/-- C1: a sequence of well-formed documents written by the file sink writer
and read back by the file source reader yields the same documents, in the
same order, with identical collection, id and payload, on both gzip (path
ending in ".gz") and plain paths.  `enc`/`dec` stand for the external
`json.Marshal`/`json.Unmarshal` pair (well-formed means: the record
marshals, without a raw newline, and unmarshalling its line restores it)
and `comp`/`decomp` for the external gzip codec. -/
theorem fileRoundTrip (comp decomp : List Char → List Char) (filePath : List Char)
    (enc : Document → Option (List Char)) (dec : List Char → Option Document)
    (wfail : Nat → Bool) (docs : List Document)
    (hcodec : ∀ bs, decomp (comp bs) = bs)
    (hdocs : ∀ d ∈ docs, ∃ b, enc d = some b ∧ nl ∉ b ∧ dec (b ++ [nl]) = some d) :
    readDataFromFile decomp filePath
        (writeDataToFile comp filePath enc wfail none docs).out
      = docs.map (marshalLine enc)
    ∧ (docs.map (marshalLine enc)).length = docs.length
    ∧ (docs.map (marshalLine enc)).map dec = docs.map some := by
  have hbody : ∀ d ∈ docs, nl ∉ (match enc d with | some b => b | none => ([] : List Char)) := by
    intro d hd
    obtain ⟨b, hb, hnb, _⟩ := hdocs d hd
    simpa [hb] using hnb
  have hmap : docs.map (marshalLine enc)
      = (docs.map (fun d => match enc d with | some b => b | none => [])).map (· ++ [nl]) := by
    rw [List.map_map]
    rfl
  have hW : splitLines ((docs.map (marshalLine enc)).flatten) = docs.map (marshalLine enc) := by
    rw [hmap]
    apply splitLines_flat
    intro l hl
    simp only [List.mem_map] at hl
    obtain ⟨d, hd, rfl⟩ := hl
    exact hbody d hd
  have hres : (writeLoop enc wfail none docs 0 0).res = none :=
    writeLoop_res_none enc wfail docs 0 0
  have hout : (writeDataToFile comp filePath enc wfail none docs).out
      = (if trailsWith filePath gzExt then comp ((docs.map (marshalLine enc)).flatten)
         else (docs.map (marshalLine enc)).flatten) := by
    simp [writeDataToFile, hres, writeLoop_written]
  refine ⟨?_, by simp, ?_⟩
  · rw [readDataFromFile, hout]
    by_cases hgz : trailsWith filePath gzExt = true
    · simp [hgz, hcodec, hW]
    · simp only [Bool.not_eq_true] at hgz
      simp [hgz, hW]
  · rw [List.map_map]
    apply List.map_congr_left
    intro d hd
    obtain ⟨b, hb, _, hdec⟩ := hdocs d hd
    simp [Function.comp, marshalLine, hb, hdec]

def tab : Char := Char.ofNat 9

/-- A small concrete record codec, used to exercise theorems that are
parameterized over the external `encoding/json` codec on concrete inputs. -/
def encDoc (d : Document) : Option (List Char) :=
  some (d.collection ++ tab :: d.id ++ tab :: d.payload)

def splitOnTab : List Char → List (List Char)
  | [] => [[]]
  | c :: cs =>
    if c = tab then [] :: splitOnTab cs
    else
      match splitOnTab cs with
      | [] => [[c]]
      | p :: ps => (c :: p) :: ps

def dropTrailingNl (l : List Char) : List Char :=
  if l.getLast? = some nl then l.dropLast else l

def decDoc (l : List Char) : Option Document :=
  match splitOnTab (dropTrailingNl l) with
  | [a, b, c] => some ⟨a, b, c⟩
  | _ => none

theorem fileRoundTripWitness :
    (∀ bs : List Char, (fun x => x : List Char → List Char) bs = bs)
    ∧ (∀ d ∈ [Document.mk ['a'] ['b'] ['c']],
        ∃ b, encDoc d = some b ∧ nl ∉ b ∧ decDoc (b ++ [nl]) = some d)
    ∧ readDataFromFile (fun x => x) ("out.gz".toList)
        (writeDataToFile (fun x => x) ("out.gz".toList) encDoc (fun _ => false) none
          [Document.mk ['a'] ['b'] ['c']]).out
      = [Document.mk ['a'] ['b'] ['c']].map (marshalLine encDoc) := by
  have hdocs : ∀ d ∈ [Document.mk ['a'] ['b'] ['c']],
      ∃ b, encDoc d = some b ∧ nl ∉ b ∧ decDoc (b ++ [nl]) = some d := by
    intro d hd
    simp only [List.mem_singleton] at hd
    subst hd
    exact ⟨_, rfl, by decide, by decide⟩
  exact ⟨fun bs => rfl, hdocs,
    (fileRoundTrip (fun x => x) (fun x => x) ("out.gz".toList) encDoc decDoc
      (fun _ => false) [Document.mk ['a'] ['b'] ['c']] (fun bs => rfl) hdocs).1⟩

theorem writeLoop_res_not_io (enc : Document → Option (List Char))
    (wfail : Nat → Bool) (cancelAt : Option Nat) :
    ∀ (docs : List Document) (i w : Nat),
      (writeLoop enc wfail cancelAt docs i w).res ≠ some WErr.ioError := by
  intro docs
  induction docs with
  | nil => intro i w h; exact Option.noConfusion h
  | cons d rest ih =>
    intro i w
    simp only [writeLoop]
    by_cases hc : ctxDone cancelAt (i + 1) = true
    · simp [hc]
    · simp only [Bool.not_eq_true] at hc
      simpa [hc] using ih (i + 1) (w + 2)

theorem writeLoop_logs (enc : Document → Option (List Char))
    (wfail : Nat → Bool) :
    ∀ (docs : List Document) (i w : Nat),
      (writeLoop enc wfail none docs i w).logs
        = (docs.filter (fun d => (enc d).isNone)).length := by
  intro docs
  induction docs with
  | nil => intro i w; rfl
  | cons d rest ih =>
    intro i w
    simp only [writeLoop, ctxDone]
    cases he : enc d <;> simp [List.filter, he, ih (i + 1) (w + 2), Nat.add_comm]

/-- C7 (amended): the file sink writer never fails the transfer with an IO
error — the results of `Write` and `Flush` are discarded, so its goroutine
returns success (or the context's cancellation error) no matter how many
underlying writes failed; a record whose serialization fails is logged and
its body is dropped, but the newline separator is still written for it. -/
theorem writeDataToFileErrorHandling (comp : List Char → List Char)
    (filePath : List Char) (enc : Document → Option (List Char))
    (wfail : Nat → Bool) (cancelAt : Option Nat) (docs : List Document) :
    (writeDataToFile comp filePath enc wfail cancelAt docs).res ≠ some WErr.ioError
    ∧ (∀ d, enc d = none → marshalLine enc d = [nl])
    ∧ (writeDataToFile comp filePath enc wfail none docs).logs
        = (docs.filter (fun d => (enc d).isNone)).length := by
  refine ⟨?_, ?_, ?_⟩
  · simpa [writeDataToFile] using writeLoop_res_not_io enc wfail cancelAt docs 0 0
  · intro d hd
    simp [marshalLine, hd]
  · simpa [writeDataToFile] using writeLoop_logs enc wfail docs 0 0

/-- C7 (counterexample): a run in which both underlying writes fail still
returns success rather than IOError — refuting «fails the transfer with
IOError whenever a write to the underlying byte sink fails» — and a record
whose serialization fails still causes a newline byte to be written,
refuting «nothing is written for it». -/
theorem writeDataToFileErrorsIgnored :
    ¬ (1 ≤ (writeDataToFile (fun x => x) ("out".toList) encDoc (fun _ => true) none
            [Document.mk ['a'] ['b'] ['c']]).failedWrites →
        (writeDataToFile (fun x => x) ("out".toList) encDoc (fun _ => true) none
            [Document.mk ['a'] ['b'] ['c']]).res = some WErr.ioError)
    ∧ (writeDataToFile (fun x => x) ("out".toList) (fun _ => none) (fun _ => false) none
          [Document.mk ['a'] ['b'] ['c']]).out ≠ [] := by
  constructor
  · decide
  · decide

theorem writeDataToFileErrorHandlingWitness :
    (writeDataToFile (fun x => x) ("out".toList) encDoc (fun _ => true) none
        [Document.mk ['a'] ['b'] ['c']]).res ≠ some WErr.ioError
    ∧ marshalLine (fun _ : Document => (none : Option (List Char)))
        (Document.mk ['a'] ['b'] ['c']) = [nl] :=
  ⟨(writeDataToFileErrorHandling (fun x => x) ("out".toList) encDoc (fun _ => true) none
      [Document.mk ['a'] ['b'] ['c']]).1,
    (writeDataToFileErrorHandling (fun x => x) ("out".toList)
      (fun _ : Document => (none : Option (List Char))) (fun _ => true) none
      [Document.mk ['a'] ['b'] ['c']]).2.1 _ rfl⟩

/-- The per-record write events the sink emits for a stream of documents. -/
def writesOf (enc : Document → Option (List Char)) (docs : List Document) : List WEvent :=
  (docs.map fun d =>
    [WEvent.write (match enc d with | some b => b | none => []), WEvent.write [nl]]).flatten

theorem writeLoop_events_complete (enc : Document → Option (List Char))
    (wfail : Nat → Bool) :
    ∀ (docs : List Document) (i w : Nat),
      (writeLoop enc wfail none docs i w).events
        = writesOf enc docs ++ [WEvent.flush] := by
  intro docs
  induction docs with
  | nil => intro i w; rfl
  | cons d rest ih =>
    intro i w
    simp [writeLoop, ctxDone, writesOf, ih (i + 1) (w + 2)]

theorem writeLoop_no_close (enc : Document → Option (List Char))
    (wfail : Nat → Bool) (cancelAt : Option Nat) :
    ∀ (docs : List Document) (i w : Nat),
      WEvent.closeGzip ∉ (writeLoop enc wfail cancelAt docs i w).events
      ∧ WEvent.closeFile ∉ (writeLoop enc wfail cancelAt docs i w).events := by
  intro docs
  induction docs with
  | nil =>
    intro i w
    constructor <;> simp [writeLoop]
  | cons d rest ih =>
    intro i w
    simp only [writeLoop]
    by_cases hc : ctxDone cancelAt (i + 1) = true
    · simp [hc]
    · simp only [Bool.not_eq_true] at hc
      have := ih (i + 1) (w + 2)
      simp [hc, this.1, this.2]

theorem writeLoop_cancelled_no_flush (enc : Document → Option (List Char))
    (wfail : Nat → Bool) (cancelAt : Option Nat) :
    ∀ (docs : List Document) (i w : Nat),
      (writeLoop enc wfail cancelAt docs i w).res = some WErr.cancelled →
      WEvent.flush ∉ (writeLoop enc wfail cancelAt docs i w).events := by
  intro docs
  induction docs with
  | nil => intro i w h; exact Option.noConfusion h
  | cons d rest ih =>
    intro i w
    simp only [writeLoop]
    by_cases hc : ctxDone cancelAt (i + 1) = true
    · intro _
      simp [hc]
    · simp only [Bool.not_eq_true] at hc
      simp only [hc, Bool.false_eq_true, if_false]
      intro h
      have := ih (i + 1) (w + 2) h
      simp [this]

/-- C8 (amended): on normal end of stream the file sink flushes its buffered
writer and, for a ".gz" destination, closes the gzip stream before closing
the underlying file; on cancellation, however, it returns immediately and
neither flushes nor closes anything (so a cancelled gzip output has no valid
trailer). -/
theorem writeDataToFileFinalization (comp : List Char → List Char)
    (filePath : List Char) (enc : Document → Option (List Char))
    (wfail : Nat → Bool) (docs : List Document) :
    ((writeDataToFile comp filePath enc wfail none docs).events
        = writesOf enc docs ++ [WEvent.flush]
          ++ (if trailsWith filePath gzExt then [WEvent.closeGzip, WEvent.closeFile]
              else [WEvent.closeFile]))
    ∧ ∀ k : Nat,
        (writeDataToFile comp filePath enc wfail (some k) docs).res = some WErr.cancelled →
        WEvent.flush ∉ (writeDataToFile comp filePath enc wfail (some k) docs).events
        ∧ WEvent.closeGzip ∉ (writeDataToFile comp filePath enc wfail (some k) docs).events
        ∧ WEvent.closeFile ∉ (writeDataToFile comp filePath enc wfail (some k) docs).events := by
  constructor
  · have hres : (writeLoop enc wfail none docs 0 0).res = none :=
      writeLoop_res_none enc wfail docs 0 0
    simp [writeDataToFile, hres, writeLoop_events_complete enc wfail docs 0 0]
  · intro k h
    have hres : (writeLoop enc wfail (some k) docs 0 0).res = some WErr.cancelled := by
      simpa [writeDataToFile] using h
    have hnc := writeLoop_no_close enc wfail (some k) docs 0 0
    have hnf := writeLoop_cancelled_no_flush enc wfail (some k) docs 0 0 hres
    refine ⟨?_, ?_, ?_⟩ <;> simp [writeDataToFile, hres, hnf, hnc.1, hnc.2]

/-- C8 (counterexample): a run cancelled after its first record returns the
cancellation error without ever flushing the buffered writer (nor closing
the gzip stream or the file), refuting «on both stream end and cancellation,
the File Sink Writer flushes its buffered writer ...». -/
theorem cancelSkipsFlush :
    (writeDataToFile (fun x => x) ("x.gz".toList) encDoc (fun _ => false) (some 0)
        [Document.mk ['a'] ['b'] ['c']]).res = some WErr.cancelled
    ∧ WEvent.flush ∉ (writeDataToFile (fun x => x) ("x.gz".toList) encDoc (fun _ => false)
        (some 0) [Document.mk ['a'] ['b'] ['c']]).events := by
  constructor
  · decide
  · decide

theorem writeDataToFileFinalizationWitness :
    (writeDataToFile (fun x => x) ("o.gz".toList) encDoc (fun _ => false) (some 0)
        [Document.mk ['d'] ['e'] ['f']]).res = some WErr.cancelled
    ∧ WEvent.flush ∉ (writeDataToFile (fun x => x) ("o.gz".toList) encDoc (fun _ => false)
        (some 0) [Document.mk ['d'] ['e'] ['f']]).events :=
  ⟨by decide,
    (((writeDataToFileFinalization (fun x => x) ("o.gz".toList) encDoc (fun _ => false)
        [Document.mk ['d'] ['e'] ['f']]).2 0) (by decide)).1⟩

/-- One request handed to the bulk processor:
`elastic.NewBulkIndexRequest().Index(i).Id(res.Id).Doc(res.Source)`. -/
structure BulkRequest where
  index : List Char
  id : List Char
  doc : List Char
deriving DecidableEq

/-- The zero value of `elastic.SearchHit`, which is what `res` holds when
`json.Unmarshal` fails to fill it. -/
def zeroHit : Document := ⟨[], [], []⟩

structure BulkOut where
  requests : List BulkRequest
  logs : Nat
deriving DecidableEq

/-- The request built for one record (main.go 308-312): use the configured
destination index when nonempty, else the record's own index. -/
def mkBulkRequest (dstIndex : List Char) (res : Document) : BulkRequest :=
  ⟨if dstIndex = [] then res.collection else dstIndex, res.id, res.payload⟩

/-- The per-record loop of `writeDataToElastic` (main.go 299-323): unmarshal
each line into a `SearchHit` (`dec` stands for `json.Unmarshal`; on failure
the error is logged and `res` keeps its zero value), then always build a bulk
index request and hand it to the bulk processor.  Cancellation is modelled in
the pipeline transition system, not here. -/
def writeDataToElastic (dec : List Char → Option Document) (dstIndex : List Char) :
    List (List Char) → BulkOut
  | [] => ⟨[], 0⟩
  | h :: rest =>
    let res := match dec h with | some d => d | none => zeroHit
    let lg : Nat := match dec h with | some _ => 0 | none => 1
    let r := writeDataToElastic dec dstIndex rest
    ⟨mkBulkRequest dstIndex res :: r.requests, lg + r.logs⟩

/-- C4 (counterexample): a line that fails to decode is logged — but it is
still submitted to the bulk-write operation, as a request with the zero
`SearchHit` (empty id, empty body), refuting «it is not submitted to the
remote bulk-write operation». -/
theorem malformedStillSubmitted :
    decDoc ['x'] = none
    ∧ (writeDataToElastic decDoc ['t'] [['x']]).requests
        = [BulkRequest.mk ['t'] [] []]
    ∧ (writeDataToElastic decDoc ['t'] [['x']]).logs = 1 := by
  refine ⟨?_, ?_, ?_⟩ <;> decide

/-- C4 (amended): for every input stream, a malformed record (one whose line
fails to deserialize) is logged and the transfer continues with the remaining
records — but the malformed record is still submitted to the bulk-write
operation, as a request built from the zero-valued hit (empty id, empty
payload, the configured destination index). -/
theorem writeDataToElasticProcessing (dec : List Char → Option Document)
    (dstIndex : List Char) (hits : List (List Char)) :
    (writeDataToElastic dec dstIndex hits).requests
      = hits.map (fun h =>
          mkBulkRequest dstIndex (match dec h with | some d => d | none => zeroHit))
    ∧ (writeDataToElastic dec dstIndex hits).logs
      = (hits.filter (fun h => (dec h).isNone)).length := by
  induction hits with
  | nil => exact ⟨rfl, rfl⟩
  | cons h rest ih =>
    constructor
    · simp [writeDataToElastic, ih.1]
    · cases hd : dec h <;>
        simp [writeDataToElastic, List.filter, hd, ih.2, Nat.add_comm]

mutual
inductive Json where
  | str (s : List Char)
  | num (n : Int)
  | bool (b : Bool)
  | null
  | arr (xs : JList)
  | obj (kvs : JObj)
inductive JList where
  | nil
  | cons (hd : Json) (tl : JList)
inductive JObj where
  | nil
  | cons (key : List Char) (val : Json) (tl : JObj)
end

def mappingsKey : List Char := "mappings".toList

/-- Lookup in a JSON object (a Go `map[string]interface{}` binding;
JSON objects bind each key once). -/
def jObjLookup (k : List Char) : JObj → Option Json
  | JObj.nil => none
  | JObj.cons key v tl => if key = k then some v else jObjLookup k tl

inductive SchemaErr where
  | alreadyExists
  | parseFailed
  | crashed
deriving DecidableEq

/-- `writeMappingsAsStringToElastic` (main.go 434-474), modelled on an
already-parsed JSON value (`gjson.Parse` is an external collaborator):
fail when the destination index exists; fail with `parseFailed` when the
body is not a JSON object; take the value of the first key (Go map
iteration order is modelled by the list order — for the one-key objects the
tool writes, this is deterministic); the runtime panics of the Go code
(type assertion on a non-map value, type assertion on the nil
`tm["mappings"]` of a zero-key map, or on a non-map `"mappings"` entry) are
modelled as `crashed`; otherwise create the index with the body
`{"mappings": {each type copied over}}` and return that submitted body. -/
def writeMappingsAsStringToElastic (indexExists : Bool) (m : Json) :
    Except SchemaErr Json :=
  if indexExists then Except.error SchemaErr.alreadyExists
  else
    match m with
    | Json.obj JObj.nil => Except.error SchemaErr.crashed
    | Json.obj (JObj.cons _ v _) =>
      (match v with
       | Json.obj tkvs =>
         (match jObjLookup mappingsKey tkvs with
          | some (Json.obj fkvs) =>
            Except.ok (Json.obj (JObj.cons mappingsKey (Json.obj fkvs) JObj.nil))
          | _ => Except.error SchemaErr.crashed)
       | _ => Except.error SchemaErr.crashed)
    | _ => Except.error SchemaErr.parseFailed

mutual
def jsonHasName (name : List Char) : Json → Bool
  | Json.str s => decide (s = name)
  | Json.num _ => false
  | Json.bool _ => false
  | Json.null => false
  | Json.arr xs => jListHasName name xs
  | Json.obj kvs => jObjHasName name kvs
def jListHasName (name : List Char) : JList → Bool
  | JList.nil => false
  | JList.cons x tl => jsonHasName name x || jListHasName name tl
def jObjHasName (name : List Char) : JObj → Bool
  | JObj.nil => false
  | JObj.cons k v tl => decide (k = name) || jsonHasName name v || jObjHasName name tl
end

/-- C5: for a schema `{"origin": {"mappings": {field section}}}` with the
destination index not yet existing, the submitted destination body is
exactly `{"mappings": {field section}}`; in particular the origin collection
name (when it is not itself the word "mappings" and does not occur inside
the field section) appears nowhere in the submitted schema. -/
theorem schemaUnwrap (origin : List Char) (fkvs : JObj)
    (hne : origin ≠ mappingsKey)
    (hnl : jObjHasName origin fkvs = false) :
    writeMappingsAsStringToElastic false
        (Json.obj (JObj.cons origin
          (Json.obj (JObj.cons mappingsKey (Json.obj fkvs) JObj.nil)) JObj.nil))
      = Except.ok (Json.obj (JObj.cons mappingsKey (Json.obj fkvs) JObj.nil))
    ∧ jsonHasName origin
        (Json.obj (JObj.cons mappingsKey (Json.obj fkvs) JObj.nil)) = false := by
  constructor
  · simp [writeMappingsAsStringToElastic, jObjLookup]
  · simp [jsonHasName, jObjHasName, hnl, Ne.symm hne]

theorem schemaUnwrapWitness :
    ("old".toList ≠ mappingsKey)
    ∧ writeMappingsAsStringToElastic false
        (Json.obj (JObj.cons ("old".toList)
          (Json.obj (JObj.cons mappingsKey
            (Json.obj (JObj.cons ("properties".toList) (Json.obj JObj.nil) JObj.nil))
            JObj.nil)) JObj.nil))
      = Except.ok (Json.obj (JObj.cons mappingsKey
          (Json.obj (JObj.cons ("properties".toList) (Json.obj JObj.nil) JObj.nil))
          JObj.nil))
    ∧ jsonHasName ("old".toList)
        (Json.obj (JObj.cons mappingsKey
          (Json.obj (JObj.cons ("properties".toList) (Json.obj JObj.nil) JObj.nil))
          JObj.nil)) = false := by
  have h := schemaUnwrap ("old".toList)
    (JObj.cons ("properties".toList) (Json.obj JObj.nil) JObj.nil)
    (by decide)
    (by simp [jObjHasName, jsonHasName])
  exact ⟨by decide, h.1, h.2⟩

/-- The three shapes on which the Go unwrap code hits a runtime failure
instead of an error return: a parsed object with zero top-level keys, a
first top-level value that is not an object, or a first top-level value
whose "mappings" entry is absent or not an object. -/
def badTopLevel : JObj → Bool
  | JObj.nil => true
  | JObj.cons _ v _ =>
    match v with
    | Json.obj tkvs =>
      (match jObjLookup mappingsKey tkvs with
       | some (Json.obj _) => false
       | _ => true)
    | _ => true

/-- C10: for every schema whose parsed JSON object has zero top-level keys,
or whose picked top-level value is not a JSON object, or whose top-level
value has no "mappings" key bound to a JSON object, the unwrap code crashes
(runtime type-assertion / nil-map failure) instead of returning a schema
parse error to the caller. -/
theorem schemaCrashOnBadShape (kvs : JObj) (hbad : badTopLevel kvs = true) :
    writeMappingsAsStringToElastic false (Json.obj kvs)
        = Except.error SchemaErr.crashed
    ∧ writeMappingsAsStringToElastic false (Json.obj kvs)
        ≠ Except.error SchemaErr.parseFailed := by
  have hmain : writeMappingsAsStringToElastic false (Json.obj kvs)
      = Except.error SchemaErr.crashed := by
    cases kvs with
    | nil => rfl
    | cons k v tl =>
      cases v with
      | obj tkvs =>
        simp only [badTopLevel] at hbad
        simp only [writeMappingsAsStringToElastic, Bool.false_eq_true, if_false]
        cases hlk : jObjLookup mappingsKey tkvs with
        | none => rfl
        | some j =>
          rw [hlk] at hbad
          cases j with
          | obj _ => exact Bool.noConfusion hbad
          | str _ => rfl
          | num _ => rfl
          | bool _ => rfl
          | null => rfl
          | arr _ => rfl
      | str s => rfl
      | num n => rfl
      | bool b => rfl
      | null => rfl
      | arr xs => rfl
  refine ⟨hmain, ?_⟩
  rw [hmain]
  intro h
  injection h with h
  exact SchemaErr.noConfusion h

theorem schemaCrashOnBadShapeWitness :
    writeMappingsAsStringToElastic false (Json.obj JObj.nil)
      = Except.error SchemaErr.crashed :=
  (schemaCrashOnBadShape JObj.nil rfl).1

/-- The range filter as built by the code:
`elastic.NewRangeQuery(field).Format("yyyy.MM.dd HH:mm:ss").Gt(start).Lte(end)`. -/
structure RangeQuery where
  field : List Char
  format : List Char
  gt : List Char
  lte : List Char
deriving DecidableEq

def timeFormat : List Char := "yyyy.MM.dd HH:mm:ss".toList

/-- The pre-flight count query of `connectElasticSource` (main.go 171-178):
when a time field is configured, count with the range filter, else without. -/
def connectElasticSourceQuery (timeField timeStart timeEnd : List Char) :
    Option RangeQuery :=
  if timeField ≠ [] then some ⟨timeField, timeFormat, timeStart, timeEnd⟩ else none

/-- The scroll query of `readDataFromElastic` (main.go 216-219): when a time
field is configured, scan with the range filter, else without. -/
def readDataFromElasticQuery (srcTimeField srcTimeStart srcTimeEnd : List Char) :
    Option RangeQuery :=
  if srcTimeField ≠ [] then some ⟨srcTimeField, timeFormat, srcTimeStart, srcTimeEnd⟩
  else none

/-- Modelled from the spec: the remote endpoint (an external collaborator)
evaluates a `Gt`/`Lte` range filter on the parsed timestamp value as
«strictly greater than `gt` and less than or equal to `lte`». -/
def evalRangeFilter (startT endT v : Nat) : Bool :=
  decide (startT < v) && decide (v ≤ endT)

/-- C9: the pre-flight count and the scroll scan build the identical range
filter (same field, same fixed "yyyy.MM.dd HH:mm:ss" timestamp format, same
exclusive lower and inclusive upper bound), in the filtered and in the
unfiltered case alike; and under the filter semantics a value equal to the
start bound is excluded, one equal to the end bound is included, and one
past the end bound is excluded. -/
theorem timeFilterBoundary (f ts te : List Char) (s e : Nat) (h : s < e) :
    connectElasticSourceQuery f ts te = readDataFromElasticQuery f ts te
    ∧ evalRangeFilter s e s = false
    ∧ evalRangeFilter s e e = true
    ∧ evalRangeFilter s e (e + 1) = false := by
  refine ⟨rfl, ?_, ?_, ?_⟩
  · simp [evalRangeFilter]
  · simp [evalRangeFilter, h]
  · simp [evalRangeFilter]

theorem timeFilterBoundaryWitness :
    (1 < 2)
    ∧ (connectElasticSourceQuery ("stime".toList) ("a".toList) ("b".toList)
        = readDataFromElasticQuery ("stime".toList) ("a".toList) ("b".toList))
    ∧ evalRangeFilter 1 2 1 = false
    ∧ evalRangeFilter 1 2 2 = true
    ∧ evalRangeFilter 1 2 3 = false :=
  ⟨by decide,
    (timeFilterBoundary ("stime".toList) ("a".toList) ("b".toList) 1 2 (by decide)).1,
    (timeFilterBoundary ("stime".toList) ("a".toList) ("b".toList) 1 2 (by decide)).2.1,
    (timeFilterBoundary ("stime".toList) ("a".toList) ("b".toList) 1 2 (by decide)).2.2.1,
    (timeFilterBoundary ("stime".toList) ("a".toList) ("b".toList) 1 2 (by decide)).2.2.2⟩

/-- Errors in the transfer pipeline: a fatal producer error (a failed scroll
call), a fatal consumer error (the sink's own failure), or the context's
cancellation error (`ctx.Err()`). -/
inductive PErr where
  | prodFatal (n : Nat)
  | consFatal (n : Nat)
  | cancelled
deriving DecidableEq

inductive ProdState where
  | running
  | doneOk
  | doneErr (e : PErr)
deriving DecidableEq

/-- The consumer goroutine's position: blocked on the channel receive
(`for h := range hits`), or between processing a record and the non-blocking
context poll (`select {default: case <-ctx.Done():}`), or returned. -/
inductive ConsState where
  | waiting
  | checking
  | doneOk
  | doneErr (e : PErr)
deriving DecidableEq

/-- Fault-injection configuration: the sink writer raises fatal error
`failCode` right after consuming record number `failAfter` (counted from 1).
`failAfter = none` is the unmodified code, whose sink goroutine never
originates a fatal error. -/
structure PipeCfg where
  failAfter : Option Nat
  failCode : Nat
deriving DecidableEq

/-- A state of the two-goroutine transfer pipeline: the producer
(`readDataFromElastic`, main.go 209-239) and a consumer with the sink
writers' common skeleton (main.go 299-328 / 348-379), joined by the
unbuffered channel `hits` (modelled, as the spec does, as a single-slot
handoff cell) inside one `errgroup` whose context is cancelled when the
first goroutine returns a non-nil error.  `sent` and `lateSends` are ghost
counters: documents handed to the channel overall, and handed to the channel
after the cancellation signal was raised. -/
structure Pipe where
  pending : List Nat
  slot : Option Nat
  closed : Bool
  accepted : Nat
  sent : Nat
  lateSends : Nat
  prod : ProdState
  cons : ConsState
  firstErr : Option PErr
deriving DecidableEq

/-- `errgroup` records only the first non-nil error; recording it also
cancels the shared context. -/
def recordErr (fe : Option PErr) (e : PErr) : Option PErr :=
  match fe with
  | some x => some x
  | none => some e

def pipeInit (docs : List Nat) : Pipe :=
  ⟨docs, none, false, 0, 0, 0, ProdState.running, ConsState.waiting, none⟩

/-- The interleaved small steps of the two goroutines.

Producer (readDataFromElastic): for each hit it runs
`select { case hits <- hit: ; case <-ctx.Done(): return ctx.Err() }` — the
send commits only when the channel cell is free, and the done branch is
available only once the context is cancelled; when the hits run out the next
scroll returns `io.EOF` and the goroutine returns nil; a scroll call may also
fail at any time.  `close(hits)` is deferred, so the channel closes on every
producer return path.

Consumer: `for h := range hits` receives (or ends the loop once the channel
is closed and drained), processes the record, then polls the context
non-blockingly, returning `ctx.Err()` when it is done; with fault injection
it instead raises its own fatal error after `failAfter` records. -/
inductive Step (cfg : PipeCfg) : Pipe → Pipe → Prop where
  | send (s t : Pipe) (d : Nat) (rest : List Nat)
      (hprod : s.prod = ProdState.running)
      (hslot : s.slot = none)
      (hpend : s.pending = d :: rest)
      (ht : t = { s with
                  pending := rest
                  slot := some d
                  sent := s.sent + 1
                  lateSends := s.lateSends + (if s.firstErr.isSome then 1 else 0) }) :
      Step cfg s t
  | prodFinish (s t : Pipe)
      (hprod : s.prod = ProdState.running)
      (hpend : s.pending = [])
      (ht : t = { s with
                  prod := ProdState.doneOk
                  closed := true }) :
      Step cfg s t
  | prodCancel (s t : Pipe) (d : Nat) (rest : List Nat)
      (hprod : s.prod = ProdState.running)
      (hpend : s.pending = d :: rest)
      (hcanc : s.firstErr.isSome = true)
      (ht : t = { s with
                  prod := ProdState.doneErr PErr.cancelled
                  closed := true }) :
      Step cfg s t
  | prodFail (s t : Pipe) (e : Nat)
      (hprod : s.prod = ProdState.running)
      (ht : t = { s with
                  prod := ProdState.doneErr (PErr.prodFatal e)
                  closed := true
                  firstErr := recordErr s.firstErr (PErr.prodFatal e) }) :
      Step cfg s t
  | recv (s t : Pipe) (d : Nat)
      (hcons : s.cons = ConsState.waiting)
      (hslot : s.slot = some d)
      (ht : t = { s with
                  cons := ConsState.checking
                  slot := none
                  accepted := s.accepted + 1 }) :
      Step cfg s t
  | consClose (s t : Pipe)
      (hcons : s.cons = ConsState.waiting)
      (hslot : s.slot = none)
      (hclosed : s.closed = true)
      (ht : t = { s with cons := ConsState.doneOk }) :
      Step cfg s t
  | consFail (s t : Pipe)
      (hcons : s.cons = ConsState.checking)
      (hfail : cfg.failAfter = some s.accepted)
      (ht : t = { s with
                  cons := ConsState.doneErr (PErr.consFatal cfg.failCode)
                  firstErr := recordErr s.firstErr (PErr.consFatal cfg.failCode) }) :
      Step cfg s t
  | consCheckCancel (s t : Pipe)
      (hcons : s.cons = ConsState.checking)
      (hfail : cfg.failAfter ≠ some s.accepted)
      (hcanc : s.firstErr.isSome = true)
      (ht : t = { s with cons := ConsState.doneErr PErr.cancelled }) :
      Step cfg s t
  | consCheckOk (s t : Pipe)
      (hcons : s.cons = ConsState.checking)
      (hfail : cfg.failAfter ≠ some s.accepted)
      (hcanc : s.firstErr.isSome = false)
      (ht : t = { s with cons := ConsState.waiting }) :
      Step cfg s t

/-- Reachability along pipeline steps. -/
inductive Reach (cfg : PipeCfg) : Pipe → Pipe → Prop where
  | refl (s : Pipe) : Reach cfg s s
  | tail (a b c : Pipe) (hab : Reach cfg a b) (hbc : Step cfg b c) : Reach cfg a c

theorem step_firstErr_mono {cfg : PipeCfg} {s t : Pipe} (hst : Step cfg s t)
    {x : PErr} (h : s.firstErr = some x) : t.firstErr = some x := by
  cases hst <;> subst_vars <;> simp_all [recordErr]

theorem reach_firstErr_mono {cfg : PipeCfg} {s t : Pipe} (hst : Reach cfg s t)
    {x : PErr} (h : s.firstErr = some x) : t.firstErr = some x := by
  induction hst with
  | refl => exact h
  | tail b c hab hbc ih => exact step_firstErr_mono hbc ih

def slotCount (s : Pipe) : Nat := if s.slot.isSome then 1 else 0

/-- The inductive invariant of the pipeline. -/
structure PipeInv (s : Pipe) : Prop where
  sentEq : s.sent = s.accepted + slotCount s
  lateLe : s.lateSends ≤ 1
  lateSlot : s.lateSends = 1 → s.slot.isSome = true
  lateCons : s.lateSends = 1 → ∃ c, s.firstErr = some (PErr.consFatal c)
  consErr : ∀ c, s.firstErr = some (PErr.consFatal c) →
    s.cons = ConsState.doneErr (PErr.consFatal c)
  prodErr : ∀ c, s.firstErr = some (PErr.prodFatal c) →
    s.prod = ProdState.doneErr (PErr.prodFatal c)
  notCancFirst : s.firstErr ≠ some PErr.cancelled

theorem pipeInit_inv (docs : List Nat) : PipeInv (pipeInit docs) := by
  refine ⟨rfl, by simp [pipeInit], ?_, ?_, ?_, ?_, ?_⟩ <;> simp [pipeInit]

theorem step_inv {cfg : PipeCfg} {s t : Pipe} (inv : PipeInv s) (hst : Step cfg s t) :
    PipeInv t := by
  obtain ⟨h1, h2, h3, h4, h5, h6, h7⟩ := inv
  cases hst with
  | send d rest hprod hslot hpend ht =>
    subst ht
    have h1' : s.sent = s.accepted := by
      simpa [slotCount, hslot] using h1
    cases hfe : s.firstErr with
    | none =>
      refine ⟨?_, ?_, ?_, ?_, ?_, ?_, ?_⟩
      · simp [slotCount, h1']
      · simpa [hfe] using h2
      · intro _
        simp
      · intro hl
        simp only [hfe, Option.isSome_none, Bool.false_eq_true, if_false,
          Nat.add_zero] at hl
        obtain ⟨c, hc⟩ := h4 hl
        rw [hfe] at hc
        exact Option.noConfusion hc
      · intro c hc
        simp only [hfe] at hc
        exact Option.noConfusion hc
      · intro c hc
        simp only [hfe] at hc
        exact Option.noConfusion hc
      · simp [hfe]
    | some x =>
      have hlne : s.lateSends ≠ 1 := by
        intro hl
        have hx := h3 hl
        rw [hslot] at hx
        exact Bool.noConfusion hx
      have hl0 : s.lateSends = 0 := by omega
      have hcf : ∃ c, x = PErr.consFatal c := by
        cases x with
        | consFatal c => exact ⟨c, rfl⟩
        | prodFatal c =>
          have h6' := h6 c hfe
          rw [hprod] at h6'
          exact ProdState.noConfusion h6'
        | cancelled => exact absurd hfe h7
      refine ⟨?_, ?_, ?_, ?_, ?_, ?_, ?_⟩
      · simp [slotCount, h1']
      · simp [hfe, hl0]
      · intro _
        simp
      · intro _
        obtain ⟨c, rfl⟩ := hcf
        exact ⟨c, by simpa using hfe⟩
      · intro c hc
        simp only at hc
        injection hc with hc
        subst hc
        simpa using h5 c hfe
      · intro c hc
        simp only at hc
        injection hc with hc
        subst hc
        simpa using h6 c hfe
      · simp only
        intro hy
        injection hy with hy
        subst hy
        exact h7 hfe
  | prodFinish hprod hpend ht =>
    subst ht
    refine ⟨?_, ?_, ?_, ?_, ?_, ?_, ?_⟩
    · simpa [slotCount] using h1
    · simpa using h2
    · intro hl
      simpa using h3 (by simpa using hl)
    · intro hl
      simpa using h4 (by simpa using hl)
    · intro c hc
      simpa using h5 c (by simpa using hc)
    · intro c hc
      have h6' := h6 c (by simpa using hc)
      rw [hprod] at h6'
      exact ProdState.noConfusion h6'
    · simpa using h7
  | prodCancel d rest hprod hpend hcanc ht =>
    subst ht
    refine ⟨?_, ?_, ?_, ?_, ?_, ?_, ?_⟩
    · simpa [slotCount] using h1
    · simpa using h2
    · intro hl
      simpa using h3 (by simpa using hl)
    · intro hl
      simpa using h4 (by simpa using hl)
    · intro c hc
      simpa using h5 c (by simpa using hc)
    · intro c hc
      have h6' := h6 c (by simpa using hc)
      rw [hprod] at h6'
      exact ProdState.noConfusion h6'
    · simpa using h7
  | prodFail e hprod ht =>
    subst ht
    refine ⟨?_, ?_, ?_, ?_, ?_, ?_, ?_⟩
    · simpa [slotCount] using h1
    · simpa using h2
    · intro hl
      simpa using h3 (by simpa using hl)
    · intro hl
      obtain ⟨c, hc⟩ := h4 (by simpa using hl)
      exact ⟨c, by simp [recordErr, hc]⟩
    · intro c hc
      simp only at hc
      cases hfe : s.firstErr with
      | none =>
        rw [hfe] at hc
        simp only [recordErr] at hc
        injection hc with hc
        exact PErr.noConfusion hc
      | some y =>
        rw [hfe] at hc
        simp only [recordErr] at hc
        injection hc with hc
        subst hc
        simpa using h5 c hfe
    · intro c hc
      simp only at hc
      cases hfe : s.firstErr with
      | none =>
        rw [hfe] at hc
        simp only [recordErr] at hc
        injection hc with hc
        injection hc with hc
        subst hc
        simp
      | some y =>
        rw [hfe] at hc
        simp only [recordErr] at hc
        injection hc with hc
        subst hc
        have h6' := h6 c hfe
        rw [hprod] at h6'
        exact ProdState.noConfusion h6'
    · simp only
      cases hfe : s.firstErr with
      | none =>
        simp [recordErr]
      | some y =>
        simp only [recordErr]
        intro hy
        rw [← hfe] at hy
        exact h7 hy
  | recv d hcons hslot ht =>
    subst ht
    have h1' : s.sent = s.accepted + 1 := by
      simpa [slotCount, hslot] using h1
    refine ⟨?_, ?_, ?_, ?_, ?_, ?_, ?_⟩
    · simp [slotCount, h1']
    · simpa using h2
    · intro hl
      obtain ⟨c, hc⟩ := h4 (by simpa using hl)
      have hx := h5 c hc
      rw [hcons] at hx
      exact ConsState.noConfusion hx
    · intro hl
      simpa using h4 (by simpa using hl)
    · intro c hc
      have hx := h5 c (by simpa using hc)
      rw [hcons] at hx
      exact ConsState.noConfusion hx
    · intro c hc
      simpa using h6 c (by simpa using hc)
    · simpa using h7
  | consClose hcons hslot hclosed ht =>
    subst ht
    refine ⟨?_, ?_, ?_, ?_, ?_, ?_, ?_⟩
    · simpa [slotCount] using h1
    · simpa using h2
    · intro hl
      simpa using h3 (by simpa using hl)
    · intro hl
      simpa using h4 (by simpa using hl)
    · intro c hc
      have hx := h5 c (by simpa using hc)
      rw [hcons] at hx
      exact ConsState.noConfusion hx
    · intro c hc
      simpa using h6 c (by simpa using hc)
    · simpa using h7
  | consFail hcons hfail ht =>
    subst ht
    refine ⟨?_, ?_, ?_, ?_, ?_, ?_, ?_⟩
    · simpa [slotCount] using h1
    · simpa using h2
    · intro hl
      simpa using h3 (by simpa using hl)
    · intro hl
      obtain ⟨c, hc⟩ := h4 (by simpa using hl)
      have hx := h5 c hc
      rw [hcons] at hx
      exact ConsState.noConfusion hx
    · intro c hc
      simp only at hc
      cases hfe : s.firstErr with
      | none =>
        rw [hfe] at hc
        simp only [recordErr] at hc
        injection hc with hc
        injection hc with hc
        subst hc
        simp
      | some y =>
        rw [hfe] at hc
        simp only [recordErr] at hc
        injection hc with hc
        subst hc
        have hx := h5 c hfe
        rw [hcons] at hx
        exact ConsState.noConfusion hx
    · intro c hc
      simp only at hc
      cases hfe : s.firstErr with
      | none =>
        rw [hfe] at hc
        simp only [recordErr] at hc
        injection hc with hc
        exact PErr.noConfusion hc
      | some y =>
        rw [hfe] at hc
        simp only [recordErr] at hc
        injection hc with hc
        subst hc
        simpa using h6 c hfe
    · simp only
      cases hfe : s.firstErr with
      | none =>
        simp [recordErr]
      | some y =>
        simp only [recordErr]
        intro hy
        rw [← hfe] at hy
        exact h7 hy
  | consCheckCancel hcons hfail hcanc ht =>
    subst ht
    refine ⟨?_, ?_, ?_, ?_, ?_, ?_, ?_⟩
    · simpa [slotCount] using h1
    · simpa using h2
    · intro hl
      simpa using h3 (by simpa using hl)
    · intro hl
      simpa using h4 (by simpa using hl)
    · intro c hc
      have hx := h5 c (by simpa using hc)
      rw [hcons] at hx
      exact ConsState.noConfusion hx
    · intro c hc
      simpa using h6 c (by simpa using hc)
    · simpa using h7
  | consCheckOk hcons hfail hcanc ht =>
    subst ht
    refine ⟨?_, ?_, ?_, ?_, ?_, ?_, ?_⟩
    · simpa [slotCount] using h1
    · simpa using h2
    · intro hl
      simpa using h3 (by simpa using hl)
    · intro hl
      simpa using h4 (by simpa using hl)
    · intro c hc
      have hc' : s.firstErr = some (PErr.consFatal c) := by simpa using hc
      rw [hc'] at hcanc
      exact Bool.noConfusion hcanc
    · intro c hc
      simpa using h6 c (by simpa using hc)
    · simpa using h7

theorem reach_inv {cfg : PipeCfg} {docs : List Nat} {s : Pipe}
    (h : Reach cfg (pipeInit docs) s) : PipeInv s := by
  induction h with
  | refl => exact pipeInit_inv docs
  | tail b c hab hbc ih => exact step_inv ih hbc

/-- C3: backpressure.  In every reachable state of the transfer pipeline the
producer has handed out at most one document beyond what the consumer has
accepted: the single (unbuffered) channel slot is the only buffer between
them. -/
theorem backpressureInvariant (cfg : PipeCfg) (docs : List Nat) (s : Pipe)
    (h : Reach cfg (pipeInit docs) s) : s.sent ≤ s.accepted + 1 := by
  have hinv := (reach_inv h).sentEq
  have hsc : slotCount s ≤ 1 := by
    unfold slotCount
    split <;> omega
  omega

theorem backpressureInvariantWitness :
    Reach (⟨none, 0⟩ : PipeCfg) (pipeInit [9])
      ⟨[], some 9, false, 0, 1, 0, ProdState.running, ConsState.waiting, none⟩
    ∧ (⟨[], some 9, false, 0, 1, 0, ProdState.running, ConsState.waiting, none⟩ : Pipe).sent
      ≤ (⟨[], some 9, false, 0, 1, 0, ProdState.running, ConsState.waiting, none⟩ : Pipe).accepted
        + 1 := by
  have h1 : Step (⟨none, 0⟩ : PipeCfg) (pipeInit [9])
      ⟨[], some 9, false, 0, 1, 0, ProdState.running, ConsState.waiting, none⟩ :=
    Step.send _ _ 9 [] rfl rfl rfl rfl
  have hr : Reach (⟨none, 0⟩ : PipeCfg) (pipeInit [9])
      ⟨[], some 9, false, 0, 1, 0, ProdState.running, ConsState.waiting, none⟩ :=
    Reach.tail _ _ _ (Reach.refl _) h1
  exact ⟨hr, backpressureInvariant _ _ _ hr⟩

/-- A step of the producer goroutine alone: one that leaves the consumer's
control state and tally untouched. -/
def ProducerMove (cfg : PipeCfg) (a b : Pipe) : Prop :=
  Step cfg a b ∧ b.cons = a.cons ∧ b.accepted = a.accepted

theorem producerMove_cases {cfg : PipeCfg} {a b : Pipe} (h : ProducerMove cfg a b) :
    a.prod = ProdState.running
    ∧ (b.prod = ProdState.running → a.slot = none ∧ b.slot.isSome = true) := by
  obtain ⟨hstep, hc1, hc2⟩ := h
  cases hstep with
  | send d rest hprod hslot hpend ht =>
    subst ht
    exact ⟨hprod, fun _ => ⟨hslot, by simp⟩⟩
  | prodFinish hprod hpend ht =>
    subst ht
    refine ⟨hprod, fun hr => ?_⟩
    exact ProdState.noConfusion hr
  | prodCancel d rest hprod hpend hcanc ht =>
    subst ht
    refine ⟨hprod, fun hr => ?_⟩
    exact ProdState.noConfusion hr
  | prodFail e hprod ht =>
    subst ht
    refine ⟨hprod, fun hr => ?_⟩
    exact ProdState.noConfusion hr
  | recv d hcons hslot ht =>
    subst ht
    simp only at hc1
    rw [hcons] at hc1
    exact ConsState.noConfusion hc1
  | consClose hcons hslot hclosed ht =>
    subst ht
    simp only at hc1
    rw [hcons] at hc1
    exact ConsState.noConfusion hc1
  | consFail hcons hfail ht =>
    subst ht
    simp only at hc1
    rw [hcons] at hc1
    exact ConsState.noConfusion hc1
  | consCheckCancel hcons hfail hcanc ht =>
    subst ht
    simp only at hc1
    rw [hcons] at hc1
    exact ConsState.noConfusion hc1
  | consCheckOk hcons hfail hcanc ht =>
    subst ht
    simp only at hc1
    rw [hcons] at hc1
    exact ConsState.noConfusion hc1

/-- C2: fail-fast cancellation.  In any reachable pipeline state where the
sink writer's own fatal error is the recorded first error: the producer has
made at most one send after the signal (and can never make three more
producer steps in a row, so it stops within one record); the consumer is
finished with exactly that error; every state reachable from here still
reports exactly the sink writer's error (errgroup keeps the first error, so
the producer's later `ctx.Err()` return does not replace it); and the
producer, if still running, always has an enabled step reacting to the
signal (the `select` done branch, or the end-of-stream return) — it is never
stuck. -/
theorem failFastCancellation (cfg : PipeCfg) (docs : List Nat) (s : Pipe) (e : Nat)
    (hreach : Reach cfg (pipeInit docs) s)
    (hfail : s.firstErr = some (PErr.consFatal e)) :
    s.lateSends ≤ 1
    ∧ s.cons = ConsState.doneErr (PErr.consFatal e)
    ∧ (∀ t, Reach cfg s t → t.firstErr = some (PErr.consFatal e))
    ∧ (s.prod = ProdState.running → ∃ t, Step cfg s t)
    ∧ (∀ a b c, ProducerMove cfg s a → ProducerMove cfg a b → ProducerMove cfg b c →
        False) := by
  have inv := reach_inv hreach
  refine ⟨inv.lateLe, inv.consErr e hfail, ?_, ?_, ?_⟩
  · intro t ht
    exact reach_firstErr_mono ht hfail
  · intro hrun
    cases hp : s.pending with
    | nil => exact ⟨_, Step.prodFinish s _ hrun hp rfl⟩
    | cons d rest =>
      refine ⟨_, Step.prodCancel s _ d rest hrun hp ?_ rfl⟩
      rw [hfail]
      rfl
  · intro a b c pm1 pm2 pm3
    have c1 := producerMove_cases pm1
    have c2 := producerMove_cases pm2
    have c3 := producerMove_cases pm3
    obtain ⟨hbs1, _⟩ := c2.2 c3.1
    obtain ⟨_, has2⟩ := c1.2 c2.1
    rw [hbs1] at has2
    exact Bool.noConfusion has2

theorem failFastCancellationWitness :
    Reach (⟨some 1, 7⟩ : PipeCfg) (pipeInit [3, 4])
      ⟨[4], none, false, 1, 1, 0, ProdState.running,
        ConsState.doneErr (PErr.consFatal 7), some (PErr.consFatal 7)⟩
    ∧ (⟨[4], none, false, 1, 1, 0, ProdState.running,
        ConsState.doneErr (PErr.consFatal 7), some (PErr.consFatal 7)⟩ : Pipe).firstErr
      = some (PErr.consFatal 7)
    ∧ (⟨[4], none, false, 1, 1, 0, ProdState.running,
        ConsState.doneErr (PErr.consFatal 7), some (PErr.consFatal 7)⟩ : Pipe).lateSends ≤ 1
    ∧ (⟨[4], none, false, 1, 1, 0, ProdState.running,
        ConsState.doneErr (PErr.consFatal 7), some (PErr.consFatal 7)⟩ : Pipe).cons
      = ConsState.doneErr (PErr.consFatal 7) := by
  have h1 : Step (⟨some 1, 7⟩ : PipeCfg) (pipeInit [3, 4])
      ⟨[4], some 3, false, 0, 1, 0, ProdState.running, ConsState.waiting, none⟩ :=
    Step.send _ _ 3 [4] rfl rfl rfl rfl
  have h2 : Step (⟨some 1, 7⟩ : PipeCfg)
      ⟨[4], some 3, false, 0, 1, 0, ProdState.running, ConsState.waiting, none⟩
      ⟨[4], none, false, 1, 1, 0, ProdState.running, ConsState.checking, none⟩ :=
    Step.recv _ _ 3 rfl rfl rfl
  have h3 : Step (⟨some 1, 7⟩ : PipeCfg)
      ⟨[4], none, false, 1, 1, 0, ProdState.running, ConsState.checking, none⟩
      ⟨[4], none, false, 1, 1, 0, ProdState.running,
        ConsState.doneErr (PErr.consFatal 7), some (PErr.consFatal 7)⟩ :=
    Step.consFail _ _ rfl rfl rfl
  have hr : Reach (⟨some 1, 7⟩ : PipeCfg) (pipeInit [3, 4])
      ⟨[4], none, false, 1, 1, 0, ProdState.running,
        ConsState.doneErr (PErr.consFatal 7), some (PErr.consFatal 7)⟩ :=
    Reach.tail _ _ _ (Reach.tail _ _ _ (Reach.tail _ _ _ (Reach.refl _) h1) h2) h3
  have hmain := failFastCancellation _ _ _ 7 hr rfl
  exact ⟨hr, rfl, hmain.1, hmain.2.1⟩
